import Mathlib

/-!
Verification of the polybook asset-discovery and registry tools.

The Python scripts under `tools/` are shallowly embedded below:
pure string/list manipulations become Lean functions on `String`/`List Char`,
Python `float` values are modelled as rationals, Python `None` as `Option`,
and a network response (for the metadata-only probes) as an explicit
`Option` of a response record, `none` standing for a timeout or network error.
-/

namespace PyUtil

/-- Three-way comparison on naturals, the embedding of Python `int` comparison. -/
def natCmp (m n : ℕ) : Ordering :=
  if m < n then .lt else if n < m then .gt else .eq

/-- Three-way comparison on characters by code point, as Python compares
the characters of two strings. -/
def charCmp (c d : Char) : Ordering := natCmp c.toNat d.toNat

/-- Lexicographic three-way comparison on lists, the embedding of Python
sequence comparison for same-type elements: first differing position decides,
a strict prefix is smaller. -/
def listCmp (cmp : α → α → Ordering) : List α → List α → Ordering
  | [], [] => .eq
  | [], _ :: _ => .lt
  | _ :: _, [] => .gt
  | a :: as, b :: bs =>
    match cmp a b with
    | .eq => listCmp cmp as bs
    | o => o

/-- Lexicographic comparison where comparing two elements may fail
(Python raises `TypeError` when `<` is applied to an int and a str);
`none` propagates the failure. -/
def optListCmp (cmp : α → α → Option Ordering) : List α → List α → Option Ordering
  | [], [] => some .eq
  | [], _ :: _ => some .lt
  | _ :: _, [] => some .gt
  | a :: as, b :: bs =>
    match cmp a b with
    | none => none
    | some .eq => optListCmp cmp as bs
    | some o => some o

/-- Python string comparison: lexicographic by code point. -/
def strCmp (s t : String) : Ordering := listCmp charCmp s.data t.data

/-- `strLEb s t` is true when `s` sorts no later than `t` under Python
string comparison. -/
def strLEb (s t : String) : Bool := strCmp s t ≠ Ordering.gt

/-- One insertion step of a stable sort: `a` is placed before the first
element `y` with `le a y`; with `le a y := key y ≤ key a` this reproduces
Python `sorted(..., reverse=True)` and with `le a y := a ≤ y` plain
`sorted(...)`, including stability on ties. -/
def pyInsert (le : α → α → Bool) (a : α) : List α → List α
  | [] => [a]
  | y :: l => if le a y then a :: y :: l else y :: pyInsert le a l

/-- Stable insertion sort, the embedding of Python `sorted`. -/
def pySorted (le : α → α → Bool) (l : List α) : List α :=
  l.foldr (pyInsert le) []

/-- Embedding of Python `str.split(sep)` for a single-character separator:
splits at every occurrence, keeping empty pieces. -/
def pySplit (sep : Char) : List Char → List (List Char)
  | [] => [[]]
  | c :: rest =>
    if c = sep then [] :: pySplit sep rest
    else
      match pySplit sep rest with
      | g :: gs => (c :: g) :: gs
      | [] => [[c]]

/-- `dropPrefix? pat l` returns the remainder of `l` after `pat` when `pat`
heads `l`, and `none` otherwise. -/
def dropPrefix? : List Char → List Char → Option (List Char)
  | [], l => some l
  | _ :: _, [] => none
  | p :: ps, c :: cs => if p = c then dropPrefix? ps cs else none

/-- Worker for `pyReplaceDel` with explicit fuel; every step consumes at
least one character of the remaining input, so fuel equal to the input
length makes the fuel-exhausted branch unreachable for a nonempty pattern. -/
def pyReplaceDelAux (pat : List Char) : ℕ → List Char → List Char
  | _, [] => []
  | 0, l => l
  | fuel + 1, c :: rest =>
    match dropPrefix? pat (c :: rest) with
    | some rest' => pyReplaceDelAux pat fuel rest'
    | none => c :: pyReplaceDelAux pat fuel rest

/-- Embedding of Python `s.replace(pat, '')`: deletes every (left-to-right,
non-overlapping) occurrence of `pat` in `s`. -/
def pyReplaceDel (pat : String) (s : String) : String :=
  ⟨pyReplaceDelAux pat.data s.data.length s.data⟩

/-- Embedding of Python `str.upper` (the pack ids handled here are ASCII). -/
def pyUpper (s : String) : String := ⟨s.data.map Char.toUpper⟩

/-- Embedding of Python `str.strip()`: removes leading and trailing
whitespace. -/
def pyStrip (s : String) : String :=
  ⟨((s.data.dropWhile Char.isWhitespace).reverse.dropWhile Char.isWhitespace).reverse⟩

/-- Embedding of Python `str.endswith`. -/
def pyEndsWith (s suffix_ : String) : Bool := suffix_.data.isSuffixOf s.data

/-- Embedding of Python `str.isdigit` for ASCII text: nonempty and all
decimal digits. -/
def pyIsdigit (l : List Char) : Bool := !l.isEmpty && l.all Char.isDigit

/-- Numeric value of a list of decimal digits (Python `int` on a digit run). -/
def digitsVal (l : List Char) : ℕ :=
  l.foldl (fun acc c => 10 * acc + (c.toNat - 48)) 0


/-- Python `round(q, 1)`: round half to even at one decimal place.
Floats are modelled as exact rationals. -/
def pyRound1 (q : ℚ) : ℚ :=
  let t : ℚ := q * 10
  let f : ℤ := ⌊t⌋
  if t - f < 1 / 2 then (f : ℚ) / 10
  else if (1 : ℚ) / 2 < t - f then ((f : ℚ) + 1) / 10
  else if f % 2 = 0 then (f : ℚ) / 10 else ((f : ℚ) + 1) / 10


end PyUtil


open PyUtil

namespace GenerateRegistry

/-!
Embedding of `tools/generate-registry.py`.

The filesystem seen by one run is modelled by `FS`: the result of
`glob.glob("*.zip")` (in the arbitrary order the filesystem yields it),
the outcome of `os.path.getsize` per path (`none` = `OSError`), and per
path the sidecar `.json` file: `none` = file absent, `some none` = file
present but `json.load` fails, `some (some m)` = parsed metadata.
-/

/-- Sidecar metadata as read from a pack's `.json` file; each field is
`none` when the key is absent (`metadata.get` then supplies the default). -/
structure Metadata where
  entries : Option ℤ := none
  source : Option String := none
  version : Option String := none
  description : Option String := none

/-- Filesystem contents of the working directory for one run. -/
structure FS where
  zipFiles : List String
  sizeOf : String → Option ℕ
  metaFile : String → Option (Option Metadata)

/-- One record of the `packs` array (all keys of the Python dict literal). -/
structure PackEntry where
  id : String
  name : String
  source_language : String
  target_language : String
  type : String
  format : String
  file : String
  size_bytes : ℕ
  size_mb : ℚ
  entries : ℤ
  source : String
  version : String
  description : String
  deriving DecidableEq

/-- The registry object: exactly the top-level keys the script writes. -/
structure Registry where
  version : String
  timestamp : String
  packs : List PackEntry

/-- A UTC wall-clock reading, the argument to `datetime.utcnow().isoformat()`. -/
structure DT where
  year : ℕ
  month : ℕ
  day : ℕ
  hour : ℕ
  minute : ℕ
  second : ℕ
  microsecond : ℕ

/-- Zero-pad the decimal representation of `n` to width `w`. -/
def pad (w : ℕ) (n : ℕ) : String :=
  ⟨List.replicate (w - (toString n).length) '0'⟩ ++ toString n

/-- Embedding of `datetime.isoformat()` (the fractional part is omitted
when the microsecond field is zero, as in CPython). -/
def pyIsoformat (t : DT) : String :=
  pad 4 t.year ++ "-" ++ pad 2 t.month ++ "-" ++ pad 2 t.day ++ "T" ++
    pad 2 t.hour ++ ":" ++ pad 2 t.minute ++ ":" ++ pad 2 t.second ++
    (if t.microsecond = 0 then "" else "." ++ pad 6 t.microsecond)

/-- `get_file_size` (lines 12-17): `os.path.getsize` under `try`, any
exception yields `0`. -/
def get_file_size (fs : FS) (filepath : String) : ℕ :=
  (fs.sizeOf filepath).getD 0

/-- Lines 50-61: derive `(source_lang, target_lang)` from the pack name by
splitting on hyphens; any hyphen count other than one degrades the target
to `"unknown"`. -/
def splitLangs (pack_name : String) : String × String :=
  if '-' ∈ pack_name.data then
    match (pySplit '-' pack_name.data).map (fun l => (⟨l⟩ : String)) with
    | [a, b] => (a, b)
    | _ => (pack_name, "unknown")
  else (pack_name, "unknown")

/-- The `name` field of a pack entry (line 65). -/
def deriveName (pack_name : String) : String :=
  pyUpper (splitLangs pack_name).1 ++ "-" ++ pyUpper (splitLangs pack_name).2 ++ " Dictionary"

/-- Lines 31-79: the record built for one `.zip` file. -/
def packEntry (fs : FS) (zip_file : String) : PackEntry :=
  let pack_name := pyReplaceDel ".zip" (pyReplaceDel ".sqlite.zip" zip_file)
  let metadata : Metadata :=
    match fs.metaFile (pack_name ++ ".json") with
    | some (some m) => m
    | _ => {}
  let size_bytes := get_file_size fs zip_file
  let langs := splitLangs pack_name
  { id := pack_name
    name := deriveName pack_name
    source_language := langs.1
    target_language := langs.2
    type := "bilingual"
    format := "sqlite"
    file := zip_file
    size_bytes := size_bytes
    size_mb := pyRound1 ((size_bytes : ℚ) / (1024 * 1024))
    entries := metadata.entries.getD 0
    source := metadata.source.getD "Wiktionary"
    version := metadata.version.getD "1.0"
    description := metadata.description.getD
      ("Bilingual dictionary for " ++ langs.1 ++ " to " ++ langs.2 ++ " translation") }

/-- `generate_registry` (lines 19-85): iterate `sorted(zip_files)`, append
one record per archive, then set the static version and the timestamp. -/
def generate_registry (fs : FS) (now : DT) : Registry :=
  { version := "1.0"
    timestamp := pyIsoformat now ++ "Z"
    packs := (pySorted strLEb fs.zipFiles).map (packEntry fs) }

end GenerateRegistry

namespace ScrapeFreedict

/-!
Embedding of `tools/scrape-freedict.py`.
-/

/-- The keys of `TOP_LANGUAGES` (lines 16-28). -/
def TOP_LANGUAGES : List String :=
  ["eng", "spa", "fra", "deu", "ita", "por", "rus", "ara", "hin", "zho", "jpn"]

/-- Python `float` restricted to unsigned decimal literals (optional digits,
optional single point, at least one digit) — the only shapes the size
column of a directory listing produces; every other input raises, which
the caller turns into `none`. -/
def pyFloat? (s : String) : Option ℚ :=
  let ip := s.data.takeWhile Char.isDigit
  let rest := s.data.dropWhile Char.isDigit
  if rest = [] then
    if ip = [] then none else some (digitsVal ip)
  else if rest.head? = some '.' ∧ rest.tail.all Char.isDigit ∧ (ip ≠ [] ∨ rest.tail ≠ []) then
    some ((digitsVal ip : ℚ) + (digitsVal rest.tail : ℚ) / (10 : ℚ) ^ rest.tail.length)
  else none

/-- Lines 100-111: parse a human-readable size such as `"4.3M"`, `"125K"`,
`"1.2G"`; `'-'` and the empty string, an unknown suffix, or a failing
`float(...)` all leave the size `None`. -/
def parse_size (size_text : String) : Option ℚ :=
  if size_text ≠ "" ∧ size_text ≠ "-" then
    if 'M' ∈ size_text.data then
      (pyFloat? ⟨size_text.data.filter (fun c => c ≠ 'M')⟩).map (fun q => q * (1024 * 1024))
    else if 'K' ∈ size_text.data then
      (pyFloat? ⟨size_text.data.filter (fun c => c ≠ 'K')⟩).map (fun q => q * 1024)
    else if 'G' ∈ size_text.data then
      (pyFloat? ⟨size_text.data.filter (fun c => c ≠ 'G')⟩).map (fun q => q * (1024 * 1024 * 1024))
    else none
  else none

/-- A table row (its `td` cells) matches when it has at least four cells
and the stripped second cell names a `.stardict.tar.xz` file (lines 94-98). -/
def rowMatches (cells : List String) : Bool :=
  4 ≤ cells.length && pyEndsWith (pyStrip (cells.getD 1 "")) ".stardict.tar.xz"

/-- Lines 94-112: scan the listing's rows for the first `.stardict.tar.xz`
entry, returning its filename together with the parsed size column; the
loop breaks at the first match. -/
def scanStardict : List (List String) → Option (String × Option ℚ)
  | [] => none
  | cells :: rest =>
    if rowMatches cells then
      some (pyStrip (cells.getD 1 ""), parse_size (pyStrip (cells.getD 3 "")))
    else scanStardict rest

/-- A Python value appearing in the version sort key: an `int` (from a
digit run) or a `str` piece, here kept as its character list. -/
def PyVal : Type := ℕ ⊕ List Char

/-- Worker for `splitDigits`: `inDigit` tells whether the chunk being
accumulated in `cur` is a digit run. -/
def sdAux (inDigit : Bool) (cur : List Char) : List Char → List (List Char)
  | [] => if inDigit then [cur, []] else [cur]
  | c :: rest =>
    if c.isDigit = inDigit then sdAux inDigit (cur ++ [c]) rest
    else if inDigit then cur :: sdAux false [c] rest
    else cur :: sdAux true [c] rest

/-- Embedding of `re.split(r'(\d+)', x)`: the maximal digit runs of `x`
are kept (as the captured groups), interleaved with the possibly empty
digit-free pieces around them; the result starts and ends with a
digit-free piece. -/
def splitDigits (l : List Char) : List (List Char) := sdAux false [] l

/-- `int(i) if i.isdigit() else i`: a digit run becomes an `int`, anything
else stays a `str` (line 83). -/
def toVal (part : List Char) : PyVal :=
  if pyIsdigit part then Sum.inl (digitsVal part) else Sum.inr part

/-- The numeric-aware sort key of line 83. -/
def sortKey (x : String) : List PyVal := (splitDigits x.data).map toVal

/-- Comparison of two key elements; Python raises `TypeError` (here `none`)
when an `int` meets a `str`. -/
def pyValCmp : PyVal → PyVal → Option Ordering
  | Sum.inl m, Sum.inl n => some (natCmp m n)
  | Sum.inr s, Sum.inr t => some (listCmp charCmp s t)
  | _, _ => none

/-- Comparison of two version strings under the sort key. -/
def keyCmp (x y : String) : Option Ordering := optListCmp pyValCmp (sortKey x) (sortKey y)

/-- `x` sorts no later than `y`; the `none` branch is unreachable
(`keyCmp` is total on keys of strings, proved below). -/
def keyLEb (x y : String) : Bool := keyCmp x y ≠ some Ordering.gt

/-- Lines 79-83: `None` for an empty version list, else
`sorted(versions, key=...)[-1]`. -/
def latestVersion (versions : List String) : Option String :=
  if versions.isEmpty then none else (pySorted keyLEb versions).getLast?

/-- Lines 141-144: keep a pair when either side is a top language. -/
def keepPair (lang1 lang2 : String) : Bool :=
  decide (lang1 ∈ TOP_LANGUAGES) || decide (lang2 ∈ TOP_LANGUAGES)

/-- The filtering loop of `main` over the scraped `lang1-lang2` pairs. -/
def relevantPairs (all_pairs : List (String × String)) : List (String × String) :=
  all_pairs.filter (fun p => keepPair p.1 p.2)

/-! The version sort key never mixes an `int` with a `str` at the same
position: a key is an alternation starting and ending with a `str` chunk.
`AltIR` captures that shape. -/

/-- Alternating shape of a sort key: `str`, `int`, `str`, …, `str`. -/
inductive AltIR : List PyVal → Prop where
  | single (s : List Char) : AltIR [Sum.inr s]
  | cons (s : List Char) (n : ℕ) (rest : List PyVal) :
      AltIR rest → AltIR (Sum.inr s :: Sum.inl n :: rest)


end ScrapeFreedict

namespace ScrapeWiktionary

/-!
Embedding of `tools/scrape-wiktionary.py` (and the registry-sorting step
shared verbatim with `tools/scrape-freedict.py`).
-/

/-- The keys of `TOP_LANGUAGES` (lines 16-75). -/
def TOP_LANGUAGES : List String :=
  ["english", "spanish", "french", "german", "italian", "portuguese", "russian",
   "arabic", "chinese", "mandarin", "japanese", "korean", "hindi",
   "dutch", "polish", "turkish", "greek", "czech", "hungarian", "finnish",
   "swedish", "norwegian", "danish", "ukrainian", "bulgarian", "romanian",
   "serbian", "croatian", "slovenian", "slovak", "lithuanian", "latvian",
   "estonian", "vietnamese", "thai", "indonesian", "malay", "tagalog",
   "bengali", "tamil", "telugu", "gujarati", "marathi", "kannada",
   "malayalam", "punjabi", "urdu", "persian", "hebrew", "latin", "esperanto"]

/-- An HTTP response as seen by the probe: its status code and, when the
`content-length` header is present, the byte count it carries. -/
structure HResp where
  status : ℕ
  contentLength : Option ℕ

/-- `get_file_size` (lines 119-130): a metadata-only request; `none` in the
argument is a timeout or network error (the `except` branch). The byte
count is returned only for a 200 response bearing `content-length`; every
failure returns `None`, never `0`. -/
def get_file_size (r : Option HResp) : Option ℕ :=
  match r with
  | none => none
  | some resp =>
    if resp.status = 200 then
      match resp.contentLength with
      | some n => some n
      | none => none
    else none

/-- Lines 101-110: keep a dictionary when either language name is a key of
`TOP_LANGUAGES`. -/
def keepDict (lang1 lang2 : String) : Bool :=
  decide (lang1 ∈ TOP_LANGUAGES) || decide (lang2 ∈ TOP_LANGUAGES)

/-- The filtering loop of `scrape_wiktionary_repo` over the extracted
lower-cased language-name pairs. -/
def keptDicts (cands : List (String × String)) : List (String × String) :=
  cands.filter (fun p => keepDict p.1 p.2)

/-- The sort key of the final registry sort: `x[1]['size_mb'] or 0`
(an absent size counts as zero). -/
def sizeKey (x : String × Option ℚ) : ℚ := x.2.getD 0

/-- The comparator realizing `sorted(results.items(), key=..., reverse=True)`:
an item may precede another exactly when its key is no smaller. -/
def descLE (x y : String × Option ℚ) : Bool := sizeKey y ≤ sizeKey x

/-- Python dict assignment `d[k] = v`: an existing key keeps its position
and takes the new value, a new key is appended. -/
def dictInsert (k : String) (v : Option ℚ) :
    List (String × Option ℚ) → List (String × Option ℚ)
  | [] => [(k, v)]
  | (k', v') :: d => if k' = k then (k, v) :: d else (k', v') :: dictInsert k v d

/-- The accumulation loop: `results[dict_key] = {...}` over the scanned
items, each item carrying its pair key and its `size_mb`. -/
def buildResults (items : List (String × Option ℚ)) : List (String × Option ℚ) :=
  items.foldl (fun d kv => dictInsert kv.1 kv.2 d) []

/-- Lines 187-190 (identically lines 176-179 of `scrape-freedict.py`):
the final registry, `dict(sorted(results.items(), key=lambda x:
x[1]['size_mb'] or 0, reverse=True))`. -/
def registryOf (items : List (String × Option ℚ)) : List (String × Option ℚ) :=
  pySorted descLE (buildResults items)

end ScrapeWiktionary

namespace ScrapeWiktionaryTop10

/-- The keys of `TOP_10_LANGUAGES` (lines 13-24 of
`tools/scrape-wiktionary-top10.py`). -/
def TOP_10_LANGUAGES : List String :=
  ["english", "spanish", "french", "german", "italian", "portuguese",
   "russian", "chinese", "japanese", "korean"]

/-- Lines 68-77: keep a dictionary only when BOTH languages are top-10. -/
def keepDict (lang1 lang2 : String) : Bool :=
  decide (lang1 ∈ TOP_10_LANGUAGES) && decide (lang2 ∈ TOP_10_LANGUAGES)

/-- The filtering loop of `scrape_top10_wiktionary`. -/
def keptDicts (cands : List (String × String)) : List (String × String) :=
  cands.filter (fun p => keepDict p.1 p.2)

end ScrapeWiktionaryTop10

namespace QuickScrape

/-- `test_url` (lines 22-31 of `tools/quick-scrape.py`): same probe contract
as `ScrapeWiktionary.get_file_size`, `int(size) if size else None` under a
catch-all `except`. -/
def test_url (r : Option ScrapeWiktionary.HResp) : Option ℕ :=
  match r with
  | none => none
  | some resp =>
    if resp.status = 200 then
      match resp.contentLength with
      | some n => some n
      | none => none
    else none

end QuickScrape

/-!
Concrete directory contents used to exercise the theorems below on
explicit inputs.
-/

/-- A directory in which no file size can be read. -/
def noSize : String → Option ℕ := fun _ => none

/-- A directory carrying no sidecar metadata files. -/
def noMeta : String → Option (Option GenerateRegistry.Metadata) := fun _ => none

/-- A fixed clock reading. -/
def t0 : GenerateRegistry.DT := ⟨2024, 1, 2, 3, 4, 5, 0⟩

/-- A second clock reading. -/
def t1 : GenerateRegistry.DT := ⟨2025, 6, 7, 8, 9, 10, 11⟩

/-- The directory of end-to-end scenario 1: `eng-spa.zip` of 1 MiB and
`eng-spa.json` with 500 entries and version 2.0. -/
def fsC4 : GenerateRegistry.FS :=
  { zipFiles := ["eng-spa.zip"]
    sizeOf := fun p => if p = "eng-spa.zip" then some 1048576 else none
    metaFile := fun p =>
      if p = "eng-spa.json" then
        some (some { entries := some 500, version := some "2.0" })
      else none }

/-- A directory whose scan order is not alphabetical. -/
def fsC8 : GenerateRegistry.FS :=
  { zipFiles := ["b.zip", "a.zip"], sizeOf := noSize, metaFile := noMeta }

/-- The same directory contents scanned in the opposite order. -/
def fsC8' : GenerateRegistry.FS :=
  { zipFiles := ["a.zip", "b.zip"], sizeOf := noSize, metaFile := noMeta }

/-- A directory with one archive whose size cannot be read. -/
def fsC10 : GenerateRegistry.FS :=
  { zipFiles := ["x.zip"], sizeOf := noSize, metaFile := noMeta }

namespace PyUtil

/-! Basic facts about the helpers above. -/

theorem str_ext {a b : String} (h : a.data = b.data) : a = b := by
  cases a; cases b; cases h; rfl

theorem str_data_append (a b : String) : (a ++ b).data = a.data ++ b.data := by
  cases a; cases b; rfl

theorem str_append_assoc (a b c : String) : a ++ b ++ c = a ++ (b ++ c) :=
  str_ext (by simp [str_data_append])

theorem natCmp_eq_iff {m n : ℕ} : natCmp m n = Ordering.eq ↔ m = n := by
  unfold natCmp
  rcases Nat.lt_trichotomy m n with h | h | h
  · simp [h]; omega
  · simp [h, Nat.lt_irrefl]
  · simp [Nat.lt_asymm h, h]; omega

theorem natCmp_swap (m n : ℕ) : natCmp n m = (natCmp m n).swap := by
  unfold natCmp
  rcases Nat.lt_trichotomy m n with h | h | h
  · simp [h, Nat.lt_asymm h, Ordering.swap]
  · simp [h, Nat.lt_irrefl, Ordering.swap]
  · simp [h, Nat.lt_asymm h, Ordering.swap]

theorem natCmp_lt_trans {a b c : ℕ} (h1 : natCmp a b = Ordering.lt)
    (h2 : natCmp b c = Ordering.lt) : natCmp a c = Ordering.lt := by
  unfold natCmp at h1 h2 ⊢
  split_ifs at h1 h2 ⊢ <;> simp_all <;> omega

section ListCmpLemmas

variable {α : Type} (cmp : α → α → Ordering)

theorem listCmp_eq_iff (hcmp : ∀ u v, cmp u v = Ordering.eq ↔ u = v) :
    ∀ a b : List α, listCmp cmp a b = Ordering.eq ↔ a = b := by
  intro a
  induction a with
  | nil => intro b; cases b <;> simp [listCmp]
  | cons x as ih =>
    intro b
    cases b with
    | nil => simp [listCmp]
    | cons y bs =>
      rcases h : cmp x y with _ | _ | _ <;> simp only [listCmp, h, List.cons.injEq]
      · constructor
        · intro h'; cases h'
        · rintro ⟨rfl, rfl⟩
          rw [(hcmp x x).mpr rfl] at h; cases h
      · rw [ih bs]
        constructor
        · intro h'; exact ⟨(hcmp x y).mp h, h'⟩
        · rintro ⟨rfl, h'⟩; exact h'
      · constructor
        · intro h'; cases h'
        · rintro ⟨rfl, rfl⟩
          rw [(hcmp x x).mpr rfl] at h; cases h

theorem listCmp_swap (hswap : ∀ u v, cmp v u = (cmp u v).swap) :
    ∀ a b : List α, listCmp cmp b a = (listCmp cmp a b).swap := by
  intro a
  induction a with
  | nil => intro b; cases b <;> simp [listCmp, Ordering.swap]
  | cons x as ih =>
    intro b
    cases b with
    | nil => simp [listCmp, Ordering.swap]
    | cons y bs =>
      rcases h : cmp x y with _ | _ | _ <;>
          simp only [listCmp, hswap x y, h, Ordering.swap] <;>
        first
          | rfl
          | exact ih bs

theorem listCmp_lt_trans (hcmp : ∀ u v, cmp u v = Ordering.eq ↔ u = v)
    (hlt : ∀ u v w, cmp u v = Ordering.lt → cmp v w = Ordering.lt → cmp u w = Ordering.lt) :
    ∀ a b c : List α, listCmp cmp a b = Ordering.lt → listCmp cmp b c = Ordering.lt →
      listCmp cmp a c = Ordering.lt := by
  intro a
  induction a with
  | nil =>
    intro b c h1 h2
    cases b with
    | nil => cases h1
    | cons y bs =>
      cases c with
      | nil => cases h2
      | cons z cs => simp [listCmp]
  | cons x as ih =>
    intro b c h1 h2
    cases b with
    | nil => cases h1
    | cons y bs =>
      cases c with
      | nil => cases h2
      | cons z cs =>
        rcases hxy : cmp x y with _ | _ | _ <;> rw [listCmp, hxy] at h1 <;> try cases h1
        all_goals rcases hyz : cmp y z with _ | _ | _ <;> rw [listCmp, hyz] at h2 <;> try cases h2
        · -- cmp x y = lt, cmp y z = lt
          rw [listCmp, hlt x y z hxy hyz]
        · -- cmp x y = lt, cmp y z = eq
          obtain rfl := (hcmp y z).mp hyz
          rw [listCmp, hxy]
        · -- cmp x y = eq, cmp y z = lt
          obtain rfl := (hcmp x y).mp hxy
          rw [listCmp, hyz]
        · -- cmp x y = eq, cmp y z = eq
          obtain rfl := (hcmp x y).mp hxy
          obtain rfl := (hcmp x z).mp hyz
          rw [listCmp, (hcmp x x).mpr rfl]
          exact ih bs cs h1 h2

end ListCmpLemmas

theorem charCmp_eq_iff {c d : Char} : charCmp c d = Ordering.eq ↔ c = d := by
  unfold charCmp
  rw [natCmp_eq_iff]
  constructor
  · intro h
    exact Char.eq_of_val_eq (UInt32.ext_iff.mpr h)
  · intro h; rw [h]

theorem charCmp_swap (c d : Char) : charCmp d c = (charCmp c d).swap := natCmp_swap _ _

theorem charCmp_lt_trans {u v w : Char} (h1 : charCmp u v = Ordering.lt)
    (h2 : charCmp v w = Ordering.lt) : charCmp u w = Ordering.lt :=
  natCmp_lt_trans h1 h2

theorem strCmp_eq_iff {s t : String} : strCmp s t = Ordering.eq ↔ s = t := by
  unfold strCmp
  rw [listCmp_eq_iff charCmp (fun u v => charCmp_eq_iff)]
  exact ⟨fun h => str_ext h, fun h => by rw [h]⟩

theorem strCmp_swap (s t : String) : strCmp t s = (strCmp s t).swap :=
  listCmp_swap charCmp charCmp_swap _ _

theorem strCmp_lt_trans {a b c : String} (h1 : strCmp a b = Ordering.lt)
    (h2 : strCmp b c = Ordering.lt) : strCmp a c = Ordering.lt :=
  listCmp_lt_trans charCmp (fun _ _ => charCmp_eq_iff) (fun _ _ _ => charCmp_lt_trans) _ _ _ h1 h2

theorem strLEb_iff {s t : String} : strLEb s t = true ↔ strCmp s t ≠ Ordering.gt := by
  simp [strLEb]

theorem strLEb_total (s t : String) : strLEb s t = true ∨ strLEb t s = true := by
  rcases h : strCmp s t with _ | _ | _
  · left; simp [strLEb_iff, h]
  · left; simp [strLEb_iff, h]
  · right
    rw [strLEb_iff, strCmp_swap, h]
    simp [Ordering.swap]

theorem strLEb_trans {a b c : String} (h1 : strLEb a b = true) (h2 : strLEb b c = true) :
    strLEb a c = true := by
  rw [strLEb_iff] at h1 h2 ⊢
  rcases hab : strCmp a b with _ | _ | _ <;> try exact absurd hab h1
  all_goals rcases hbc : strCmp b c with _ | _ | _ <;> try exact absurd hbc h2
  · rw [strCmp_lt_trans hab hbc]; simp
  · obtain rfl := strCmp_eq_iff.mp hbc; rw [hab]; simp
  · obtain rfl := strCmp_eq_iff.mp hab; rw [hbc]; simp
  · obtain rfl := strCmp_eq_iff.mp hab; rw [hbc]; simp

theorem strLEb_antisymm {a b : String} (h1 : strLEb a b = true) (h2 : strLEb b a = true) :
    a = b := by
  rw [strLEb_iff] at h1 h2
  rcases h : strCmp a b with _ | _ | _
  · rw [strCmp_swap, h] at h2; simp [Ordering.swap] at h2
  · exact strCmp_eq_iff.mp h
  · exact absurd h h1

/-! Facts about the stable insertion sort. -/

theorem pyInsert_perm (le : α → α → Bool) (a : α) (l : List α) :
    List.Perm (pyInsert le a l) (a :: l) := by
  induction l with
  | nil => exact List.Perm.refl _
  | cons y l ih =>
    cases h : le a y
    · simp only [pyInsert, h, Bool.false_eq_true, if_false]
      exact (ih.cons y).trans (List.Perm.swap a y l)
    · simp only [pyInsert, h, if_true]
      exact List.Perm.refl _

theorem pySorted_perm (le : α → α → Bool) (l : List α) :
    List.Perm (pySorted le l) l := by
  induction l with
  | nil => exact List.Perm.refl _
  | cons x l ih => exact (pyInsert_perm le x (pySorted le l)).trans (ih.cons x)

theorem pyInsert_pairwise (le : α → α → Bool)
    (htot : ∀ x y, le x y = true ∨ le y x = true)
    (htrans : ∀ x y z, le x y = true → le y z = true → le x z = true)
    (a : α) (l : List α) (h : List.Pairwise (fun x y => le x y = true) l) :
    List.Pairwise (fun x y => le x y = true) (pyInsert le a l) := by
  induction l with
  | nil => simp [pyInsert]
  | cons y l ih =>
    rcases List.pairwise_cons.mp h with ⟨hy, hl⟩
    cases hc : le a y
    · simp only [pyInsert, hc, Bool.false_eq_true, if_false]
      refine List.pairwise_cons.mpr ⟨?_, ih hl⟩
      intro b hb
      have hb' : b = a ∨ b ∈ l := by
        have := (pyInsert_perm le a l).mem_iff.mp hb
        simpa using this
      rcases hb' with rfl | hb'
      · rcases htot b y with h' | h'
        · rw [h'] at hc; cases hc
        · exact h'
      · exact hy b hb'
    · simp only [pyInsert, hc, if_true]
      refine List.pairwise_cons.mpr ⟨?_, h⟩
      intro b hb
      rcases List.mem_cons.mp hb with rfl | hb'
      · exact hc
      · exact htrans a y b hc (hy b hb')

theorem pySorted_pairwise (le : α → α → Bool)
    (htot : ∀ x y, le x y = true ∨ le y x = true)
    (htrans : ∀ x y z, le x y = true → le y z = true → le x z = true)
    (l : List α) : List.Pairwise (fun x y => le x y = true) (pySorted le l) := by
  induction l with
  | nil => simp [pySorted]
  | cons x l ih => exact pyInsert_pairwise le htot htrans x (pySorted le l) ih

theorem getLast?_mem {l : List α} {a : α} (h : l.getLast? = some a) : a ∈ l := by
  induction l with
  | nil => cases h
  | cons x xs ih =>
    cases xs with
    | nil =>
      simp only [List.getLast?_singleton, Option.some.injEq] at h
      simp [h]
    | cons y ys =>
      rw [List.getLast?_cons_cons] at h
      exact List.mem_cons_of_mem x (ih h)

theorem getLast?_isSome_of_ne_nil {l : List α} (h : l ≠ []) : (l.getLast?).isSome = true := by
  induction l with
  | nil => exact absurd rfl h
  | cons x xs ih =>
    cases xs with
    | nil => simp [List.getLast?_singleton]
    | cons y ys =>
      rw [List.getLast?_cons_cons]
      exact ih (by simp)

theorem pairwise_getLast_le (le : α → α → Bool) (hrefl : ∀ x, le x x = true) :
    ∀ (l : List α) (m : α), List.Pairwise (fun x y => le x y = true) l →
      l.getLast? = some m → ∀ a ∈ l, le a m = true := by
  intro l
  induction l with
  | nil => intro m _ hm; cases hm
  | cons x xs ih =>
    intro m hp hm a ha
    cases xs with
    | nil =>
      simp only [List.getLast?_singleton, Option.some.injEq] at hm
      subst hm
      rcases List.mem_singleton.mp ha with rfl
      exact hrefl _
    | cons y ys =>
      rw [List.getLast?_cons_cons] at hm
      rcases List.mem_cons.mp ha with rfl | ha'
      · exact (List.pairwise_cons.mp hp).1 m (getLast?_mem hm)
      · exact ih m (List.pairwise_cons.mp hp).2 hm a ha'

theorem pySorted_eq_of_perm (le : α → α → Bool)
    (htot : ∀ x y, le x y = true ∨ le y x = true)
    (htrans : ∀ x y z, le x y = true → le y z = true → le x z = true)
    (hanti : ∀ x y, le x y = true → le y x = true → x = y)
    {l1 l2 : List α} (h : List.Perm l1 l2) : pySorted le l1 = pySorted le l2 := by
  haveI : IsAntisymm α (fun x y => le x y = true) := ⟨hanti⟩
  exact List.eq_of_perm_of_sorted
    ((pySorted_perm le l1).trans (h.trans (pySorted_perm le l2).symm))
    (pySorted_pairwise le htot htrans l1)
    (pySorted_pairwise le htot htrans l2)

/-! Facts about `pySplit`. -/

theorem pySplit_ne_nil (sep : Char) (l : List Char) : pySplit sep l ≠ [] := by
  cases l with
  | nil => simp [pySplit]
  | cons c rest =>
    by_cases h : c = sep
    · simp [pySplit, h]
    · simp only [pySplit, h, if_false]
      rcases hr : pySplit sep rest with _ | ⟨g, gs⟩ <;> simp

theorem pySplit_sepFree (sep : Char) : ∀ l : List Char, sep ∉ l → pySplit sep l = [l] := by
  intro l
  induction l with
  | nil => intro; rfl
  | cons c rest ih =>
    intro h
    have hc : c ≠ sep := fun h' => h (h' ▸ List.mem_cons_self c rest)
    have hrest : sep ∉ rest := fun h' => h (List.mem_cons_of_mem c h')
    simp only [pySplit, hc, if_false, ih hrest]

theorem pySplit_append (sep : Char) : ∀ xs ys : List Char, sep ∉ xs →
    pySplit sep (xs ++ sep :: ys) = xs :: pySplit sep ys := by
  intro xs
  induction xs with
  | nil => intro ys _; simp [pySplit]
  | cons c xs' ih =>
    intro ys h
    have hc : c ≠ sep := fun h' => h (h' ▸ List.mem_cons_self c xs')
    have hxs : sep ∉ xs' := fun h' => h (List.mem_cons_of_mem c h')
    rw [List.cons_append, pySplit, if_neg hc, ih ys hxs]

theorem pySplit_length (sep : Char) : ∀ l : List Char,
    (pySplit sep l).length = l.count sep + 1 := by
  intro l
  induction l with
  | nil => simp [pySplit]
  | cons c rest ih =>
    by_cases h : c = sep
    · subst h
      simp [pySplit, List.count_cons_self, ih]
    · simp only [pySplit, h, if_false]
      rcases hr : pySplit sep rest with _ | ⟨g, gs⟩
      · exact absurd hr (pySplit_ne_nil sep rest)
      · rw [hr] at ih
        simp only [List.length_cons] at ih ⊢
        rw [List.count_cons_of_ne (fun h' => h h'.symm)]
        omega

end PyUtil

namespace ScrapeFreedict

theorem toVal_nondigit (cur : List Char) (h : ∀ c ∈ cur, c.isDigit = false) :
    toVal cur = Sum.inr cur := by
  unfold toVal pyIsdigit
  cases cur with
  | nil => simp
  | cons c cs =>
    have hc := h c (List.mem_cons_self c cs)
    simp [hc]

theorem toVal_digit (cur : List Char) (hne : cur ≠ [])
    (h : ∀ c ∈ cur, c.isDigit = true) : toVal cur = Sum.inl (digitsVal cur) := by
  unfold toVal pyIsdigit
  have hall : cur.all Char.isDigit = true := List.all_eq_true.mpr h
  cases cur with
  | nil => exact absurd rfl hne
  | cons c cs => simp_all

theorem sdAux_alt : ∀ rest : List Char,
    (∀ cur, (∀ c ∈ cur, c.isDigit = false) → AltIR ((sdAux false cur rest).map toVal)) ∧
    (∀ cur, cur ≠ [] → (∀ c ∈ cur, c.isDigit = true) →
      ∃ n rest', (sdAux true cur rest).map toVal = Sum.inl n :: rest' ∧ AltIR rest') := by
  intro rest
  induction rest with
  | nil =>
    constructor
    · intro cur hcur
      simp only [sdAux, Bool.false_eq_true, if_false, List.map_cons, List.map_nil,
        toVal_nondigit cur hcur]
      exact AltIR.single cur
    · intro cur hne hcur
      refine ⟨digitsVal cur, [Sum.inr []], ?_, AltIR.single []⟩
      simp only [sdAux, if_true, List.map_cons, List.map_nil, toVal_digit cur hne hcur]
      rfl
  | cons c rest ih =>
    constructor
    · intro cur hcur
      cases hd : c.isDigit
      · simp only [sdAux, hd, if_true]
        refine ih.1 (cur ++ [c]) ?_
        intro x hx
        rcases List.mem_append.mp hx with hx' | hx'
        · exact hcur x hx'
        · rcases List.mem_singleton.mp hx' with rfl
          exact hd
      · simp only [sdAux, hd, Bool.true_eq_false, Bool.false_eq_true, if_false,
          List.map_cons]
        obtain ⟨n, rest', heq, halt⟩ := ih.2 [c] (by simp) (by simp [hd])
        rw [toVal_nondigit cur hcur, heq]
        exact AltIR.cons cur n rest' halt
    · intro cur hne hcur
      cases hd : c.isDigit
      · simp only [sdAux, hd, Bool.false_eq_true, Bool.true_eq_false, if_false, if_true,
          List.map_cons]
        refine ⟨digitsVal cur, (sdAux false [c] rest).map toVal, ?_, ih.1 [c] (by simp [hd])⟩
        rw [toVal_digit cur hne hcur]
      · simp only [sdAux, hd, if_true]
        refine ih.2 (cur ++ [c]) (by simp) ?_
        intro x hx
        rcases List.mem_append.mp hx with hx' | hx'
        · exact hcur x hx'
        · rcases List.mem_singleton.mp hx' with rfl
          exact hd

/-- Every string's sort key has the alternating shape. -/
theorem altIR_sortKey (x : String) : AltIR (sortKey x) :=
  (sdAux_alt x.data).1 [] (by simp)

theorem pyValCmp_swap (u v : PyVal) : pyValCmp v u = (pyValCmp u v).map Ordering.swap := by
  rcases u with m | s <;> rcases v with n | t
  · exact congrArg some (natCmp_swap m n)
  · rfl
  · rfl
  · exact congrArg some (listCmp_swap charCmp charCmp_swap s t)

theorem pyValCmp_eq {u v : PyVal} (h : pyValCmp u v = some Ordering.eq) : u = v := by
  rcases u with m | s <;> rcases v with n | t <;> simp [pyValCmp] at h
  · rw [natCmp_eq_iff.mp h]
  · rw [(listCmp_eq_iff charCmp (fun _ _ => charCmp_eq_iff) s t).mp h]

theorem pyValCmp_lt_trans {u v w : PyVal} (h1 : pyValCmp u v = some Ordering.lt)
    (h2 : pyValCmp v w = some Ordering.lt) : pyValCmp u w = some Ordering.lt := by
  rcases u with m | s <;> rcases v with n | t <;> simp [pyValCmp] at h1 <;>
    rcases w with k | r <;> simp [pyValCmp] at h2 ⊢
  · exact natCmp_lt_trans h1 h2
  · exact listCmp_lt_trans charCmp (fun _ _ => charCmp_eq_iff)
      (fun _ _ _ => charCmp_lt_trans) _ _ _ h1 h2

theorem alt_cmp_total : ∀ a b : List PyVal, AltIR a → AltIR b →
    ∃ o, optListCmp pyValCmp a b = some o := by
  intro a b ha
  induction ha generalizing b with
  | single s =>
    intro hb
    cases hb with
    | single t =>
      rcases h : listCmp charCmp s t with _ | _ | _ <;>
        simp [optListCmp, pyValCmp, h]
    | cons t m rest hrest =>
      rcases h : listCmp charCmp s t with _ | _ | _ <;>
        simp [optListCmp, pyValCmp, h]
  | cons s n rest hrest ih =>
    intro hb
    cases hb with
    | single t =>
      rcases h : listCmp charCmp s t with _ | _ | _ <;>
        simp [optListCmp, pyValCmp, h]
    | cons t m rest' hrest' =>
      rcases h : listCmp charCmp s t with _ | _ | _ <;>
        rcases h2 : natCmp n m with _ | _ | _ <;>
          simp [optListCmp, pyValCmp, h, h2]
      exact ih rest' hrest'

/-- The version comparison never raises: for any two strings the key
comparison yields a result. -/
theorem keyCmp_some (x y : String) : ∃ o, keyCmp x y = some o :=
  alt_cmp_total (sortKey x) (sortKey y) (altIR_sortKey x) (altIR_sortKey y)

theorem optListCmp_swap {α : Type} (cmp : α → α → Option Ordering)
    (hswap : ∀ u v, cmp v u = (cmp u v).map Ordering.swap) :
    ∀ a b : List α, optListCmp cmp b a = (optListCmp cmp a b).map Ordering.swap := by
  intro a
  induction a with
  | nil => intro b; cases b <;> simp [optListCmp, Ordering.swap]
  | cons x as ih =>
    intro b
    cases b with
    | nil => simp [optListCmp, Ordering.swap]
    | cons y bs =>
      rcases h : cmp x y with _ | ⟨_ | _ | _⟩ <;>
          simp only [optListCmp, hswap x y, h, Option.map_none', Option.map_some',
            Ordering.swap] <;>
        first
          | rfl
          | exact ih bs

theorem optListCmp_eq {α : Type} (cmp : α → α → Option Ordering)
    (heq : ∀ u v, cmp u v = some Ordering.eq → u = v) :
    ∀ a b : List α, optListCmp cmp a b = some Ordering.eq → a = b := by
  intro a
  induction a with
  | nil => intro b h; cases b with
    | nil => rfl
    | cons y bs => simp [optListCmp] at h
  | cons x as ih =>
    intro b h
    cases b with
    | nil => simp [optListCmp] at h
    | cons y bs =>
      rcases hx : cmp x y with _ | ⟨_ | _ | _⟩ <;> rw [optListCmp, hx] at h <;> try cases h
      rw [heq x y hx, ih bs h]

theorem optListCmp_lt_trans {α : Type} (cmp : α → α → Option Ordering)
    (heq : ∀ u v, cmp u v = some Ordering.eq → u = v)
    (hlt : ∀ u v w, cmp u v = some Ordering.lt → cmp v w = some Ordering.lt →
      cmp u w = some Ordering.lt) :
    ∀ a b c : List α, optListCmp cmp a b = some Ordering.lt →
      optListCmp cmp b c = some Ordering.lt → optListCmp cmp a c = some Ordering.lt := by
  intro a
  induction a with
  | nil =>
    intro b c h1 h2
    cases b with
    | nil => cases h1
    | cons y bs =>
      cases c with
      | nil => cases h2
      | cons z cs => simp [optListCmp]
  | cons x as ih =>
    intro b c h1 h2
    cases b with
    | nil => simp [optListCmp] at h1
    | cons y bs =>
      cases c with
      | nil => simp [optListCmp] at h2
      | cons z cs =>
        rcases hxy : cmp x y with _ | ⟨_ | _ | _⟩ <;> rw [optListCmp, hxy] at h1 <;>
          try cases h1
        all_goals rcases hyz : cmp y z with _ | ⟨_ | _ | _⟩ <;> rw [optListCmp, hyz] at h2 <;>
          try cases h2
        · -- lt, lt
          rw [optListCmp, hlt x y z hxy hyz]
        · -- lt, eq
          obtain rfl := heq y z hyz
          rw [optListCmp, hxy]
        · -- eq, lt
          obtain rfl := heq x y hxy
          rw [optListCmp, hyz]
        · -- eq, eq
          obtain rfl := heq x y hxy
          obtain rfl := heq x z hyz
          rw [optListCmp, hxy]
          exact ih bs cs h1 h2

theorem keyLEb_iff {x y : String} : keyLEb x y = true ↔ keyCmp x y ≠ some Ordering.gt := by
  simp [keyLEb]

theorem keyLEb_total (x y : String) : keyLEb x y = true ∨ keyLEb y x = true := by
  obtain ⟨o, ho⟩ := keyCmp_some x y
  rcases o with _ | _ | _
  · left; simp [keyLEb_iff, ho]
  · left; simp [keyLEb_iff, ho]
  · right
    rw [keyLEb_iff]
    have hswap : keyCmp y x = (keyCmp x y).map Ordering.swap :=
      optListCmp_swap pyValCmp pyValCmp_swap (sortKey x) (sortKey y)
    rw [hswap, ho]
    simp [Ordering.swap]

/-! Facts about the size parser. -/

theorem pyFloat?_chars {s : String} {q : ℚ} (h : pyFloat? s = some q) :
    ∀ c ∈ s.data, c.isDigit = true ∨ c = '.' := by
  intro c hc
  unfold pyFloat? at h
  dsimp only at h
  by_cases h1 : List.dropWhile Char.isDigit s.data = []
  · left
    exact List.dropWhile_eq_nil_iff.mp h1 c hc
  · rw [if_neg h1] at h
    split_ifs at h with h3
    · obtain ⟨hhead, htail, _⟩ := h3
      rcases hrest : s.data.dropWhile Char.isDigit with _ | ⟨d, t⟩
      · exact absurd hrest h1
      · rw [hrest] at hhead
        simp only [List.head?_cons, Option.some.injEq] at hhead
        subst hhead
        have hsplit : s.data = s.data.takeWhile Char.isDigit ++ '.' :: t := by
          conv_lhs => rw [← List.takeWhile_append_dropWhile (p := Char.isDigit) (l := s.data)]
          rw [hrest]
        rw [hsplit] at hc
        rcases List.mem_append.mp hc with h4 | h4
        · left; exact List.mem_takeWhile_imp h4
        · rcases List.mem_cons.mp h4 with rfl | h5
          · right; rfl
          · left
            rw [hrest] at htail
            exact List.all_eq_true.mp htail c h5

theorem pyFloat?_not_mem {s : String} {q : ℚ} (h : pyFloat? s = some q)
    {u : Char} (hu : u.isDigit = false) (hud : u ≠ '.') : u ∉ s.data := by
  intro hmem
  rcases pyFloat?_chars h u hmem with h' | h'
  · rw [hu] at h'; cases h'
  · exact hud h'

theorem pyFloat?_filter {s : String} {q : ℚ} (h : pyFloat? s = some q)
    {u : Char} (hu : u.isDigit = false) (hud : u ≠ '.') :
    (s.data ++ [u]).filter (fun c => c ≠ u) = s.data := by
  rw [List.filter_append]
  have h1 : [u].filter (fun c => c ≠ u) = [] := by simp
  have h2 : s.data.filter (fun c => c ≠ u) = s.data := by
    rw [List.filter_eq_self]
    intro a ha
    simp only [ne_eq, decide_not, Bool.not_eq_eq_eq_not, Bool.not_true, decide_eq_false_iff_not]
    intro hau
    exact pyFloat?_not_mem h hu hud (hau ▸ ha)
  rw [h1, h2, List.append_nil]

theorem append_char_ne_empty (s : String) (u : Char) : s ++ (⟨[u]⟩ : String) ≠ "" := by
  intro he
  have hd := congrArg String.data he
  rw [str_data_append] at hd
  simp at hd

theorem append_char_ne_dash (s : String) (u : Char) (hu : u ≠ '-') :
    s ++ (⟨[u]⟩ : String) ≠ "-" := by
  intro he
  have hd := congrArg String.data he
  rw [str_data_append] at hd
  have h1 := congrArg List.getLast? hd
  rw [List.getLast?_concat] at h1
  have h2 : ("-" : String).data = ['-'] := rfl
  rw [h2, List.getLast?_singleton] at h1
  exact hu (Option.some.inj h1)

/-- Scanning stops at the first matching row and parses its size column. -/
theorem scanStardict_first (pre : List (List String)) (row : List String)
    (post : List (List String)) (hpre : ∀ r ∈ pre, rowMatches r = false)
    (hrow : rowMatches row = true) :
    scanStardict (pre ++ row :: post) =
      some (pyStrip (row.getD 1 ""), parse_size (pyStrip (row.getD 3 ""))) := by
  induction pre with
  | nil => simp only [List.nil_append, scanStardict, hrow, if_true]
  | cons r pre ih =>
    have hr := hpre r (List.mem_cons_self r pre)
    simp only [List.cons_append, scanStardict, hr, Bool.false_eq_true, if_false]
    exact ih (fun r' h' => hpre r' (List.mem_cons_of_mem r h'))

theorem keyLEb_trans {x y z : String} (h1 : keyLEb x y = true) (h2 : keyLEb y z = true) :
    keyLEb x z = true := by
  rw [keyLEb_iff] at h1 h2 ⊢
  obtain ⟨o1, ho1⟩ := keyCmp_some x y
  obtain ⟨o2, ho2⟩ := keyCmp_some y z
  have hxz : keyCmp x z = optListCmp pyValCmp (sortKey x) (sortKey z) := rfl
  rcases o1 with _ | _ | _
  · rcases o2 with _ | _ | _
    · -- lt, lt
      have h3 := optListCmp_lt_trans pyValCmp (fun _ _ => pyValCmp_eq)
        (fun _ _ _ => pyValCmp_lt_trans) _ _ _ ho1 ho2
      intro hgt
      rw [hxz, h3] at hgt
      simp at hgt
    · -- lt, eq
      have hk := optListCmp_eq pyValCmp (fun _ _ => pyValCmp_eq) _ _ ho2
      intro hgt
      rw [hxz, ← hk] at hgt
      exact h1 hgt
    · exact absurd ho2 h2
  · -- eq
    have hk := optListCmp_eq pyValCmp (fun _ _ => pyValCmp_eq) _ _ ho1
    intro hgt
    rw [hxz, hk] at hgt
    exact h2 hgt
  · exact absurd ho1 h1


end ScrapeFreedict

namespace GenerateRegistry

/-- A pack name with exactly one hyphen splits into its two hyphen-free
halves. -/
theorem splitLangs_two (a b : String) (ha : '-' ∉ a.data) (hb : '-' ∉ b.data) :
    splitLangs (a ++ "-" ++ b) = (a, b) := by
  have hdata : (a ++ "-" ++ b).data = a.data ++ '-' :: b.data := by
    rw [str_data_append, str_data_append, List.append_assoc]
    rfl
  have hmem : '-' ∈ a.data ++ '-' :: b.data :=
    List.mem_append_right _ (List.mem_cons_self _ _)
  unfold splitLangs
  rw [hdata, if_pos hmem, pySplit_append '-' a.data b.data ha, pySplit_sepFree '-' b.data hb]
  rfl

/-- A pack name with zero or at least two hyphens degrades to the
`"unknown"` target. -/
theorem splitLangs_other (id : String) (h : id.data.count '-' ≠ 1) :
    splitLangs id = (id, "unknown") := by
  unfold splitLangs
  by_cases hmem : '-' ∈ id.data
  · rw [if_pos hmem]
    have hc : 0 < id.data.count '-' := List.count_pos_iff.mpr hmem
    have hlen : 3 ≤ (pySplit '-' id.data).length := by
      rw [pySplit_length]; omega
    rcases hsp : pySplit '-' id.data with _ | ⟨x, _ | ⟨y, _ | ⟨z, rest⟩⟩⟩ <;>
      rw [hsp] at hlen <;> simp at hlen
    rfl
  · rw [if_neg hmem]

theorem packEntry_congr {fs fs' : FS} (hs : fs.sizeOf = fs'.sizeOf)
    (hm : fs.metaFile = fs'.metaFile) (z : String) : packEntry fs z = packEntry fs' z := by
  unfold packEntry get_file_size
  rw [hs, hm]

theorem packs_map_file (fs : FS) (now : DT) :
    (generate_registry fs now).packs.map PackEntry.file = pySorted strLEb fs.zipFiles := by
  unfold generate_registry
  rw [List.map_map]
  have h : (PackEntry.file ∘ packEntry fs) = fun z => z := by
    funext z; rfl
  rw [h, List.map_id']

end GenerateRegistry

namespace ScrapeWiktionary

theorem dictInsert_keys (k : String) (v : Option ℚ) : ∀ d : List (String × Option ℚ),
    (dictInsert k v d).map Prod.fst =
      if k ∈ d.map Prod.fst then d.map Prod.fst else d.map Prod.fst ++ [k] := by
  intro d
  induction d with
  | nil => simp [dictInsert]
  | cons p d ih =>
    obtain ⟨k', v'⟩ := p
    by_cases hk : k' = k
    · subst hk
      simp [dictInsert]
    · simp only [dictInsert, hk, if_false, List.map_cons, ih]
      by_cases hmem : k ∈ d.map Prod.fst
      · rw [if_pos hmem, if_pos (List.mem_cons_of_mem _ hmem)]
      · rw [if_neg hmem, if_neg ?_, List.cons_append]
        intro hc
        rcases List.mem_cons.mp hc with h' | h'
        · exact hk h'.symm
        · exact hmem h'

theorem buildResults_keys_nodup_aux : ∀ (items : List (String × Option ℚ))
    (d : List (String × Option ℚ)), (d.map Prod.fst).Nodup →
    ((items.foldl (fun d kv => dictInsert kv.1 kv.2 d) d).map Prod.fst).Nodup := by
  intro items
  induction items with
  | nil => intro d h; exact h
  | cons kv items ih =>
    intro d h
    refine ih (dictInsert kv.1 kv.2 d) ?_
    rw [dictInsert_keys]
    by_cases hmem : kv.1 ∈ d.map Prod.fst
    · rwa [if_pos hmem]
    · rw [if_neg hmem]
      rw [List.nodup_append]
      refine ⟨h, List.nodup_singleton _, ?_⟩
      intro a ha hb
      rcases List.mem_singleton.mp hb with rfl
      exact hmem ha

theorem buildResults_keys_nodup (items : List (String × Option ℚ)) :
    ((buildResults items).map Prod.fst).Nodup :=
  buildResults_keys_nodup_aux items [] (by simp)

theorem descLE_total (x y : String × Option ℚ) : descLE x y = true ∨ descLE y x = true := by
  unfold descLE
  rcases le_total (sizeKey y) (sizeKey x) with h | h
  · left; exact decide_eq_true h
  · right; exact decide_eq_true h

theorem descLE_trans (x y z : String × Option ℚ) (h1 : descLE x y = true)
    (h2 : descLE y z = true) : descLE x z = true := by
  unfold descLE at h1 h2 ⊢
  exact decide_eq_true (le_trans (of_decide_eq_true h2) (of_decide_eq_true h1))

end ScrapeWiktionary
namespace ScrapeFreedict

/-- The size parser on a well-formed number followed by a binary-multiple
suffix. -/
theorem parse_size_eq (s : String) {q : ℚ} (h : pyFloat? s = some q) :
    parse_size (s ++ "K") = some (q * 1024) ∧
    parse_size (s ++ "M") = some (q * (1024 * 1024)) ∧
    parse_size (s ++ "G") = some (q * (1024 * 1024 * 1024)) := by
  have key : ∀ u : Char, u.isDigit = false → u ≠ '.' →
      pyFloat? ⟨(s.data ++ [u]).filter (fun c => c ≠ u)⟩ = some q := by
    intro u hu hud
    rw [pyFloat?_filter h hu hud]
    exact h
  have notmem : ∀ v u : Char, v.isDigit = false → v ≠ '.' → v ≠ u →
      v ∉ (s.data ++ [u]) := by
    intro v u hv hvd hvu hmem
    rcases List.mem_append.mp hmem with hm | hm
    · exact pyFloat?_not_mem h hv hvd hm
    · exact hvu (List.mem_singleton.mp hm)
  have selfmem : ∀ u : Char, u ∈ (s.data ++ [u]) := fun u =>
    List.mem_append_right _ (List.mem_singleton_self u)
  have hdata : ∀ u : Char, (s ++ (⟨[u]⟩ : String)).data = s.data ++ [u] := by
    intro u
    rw [str_data_append]
  refine ⟨?_, ?_, ?_⟩
  · -- "<number>K"
    show parse_size (s ++ (⟨['K']⟩ : String)) = some (q * 1024)
    unfold parse_size
    rw [if_pos ⟨append_char_ne_empty s 'K', append_char_ne_dash s 'K' (by decide)⟩,
      hdata 'K',
      if_neg (notmem 'M' 'K' (by decide) (by decide) (by decide)),
      if_pos (selfmem 'K'),
      key 'K' (by decide) (by decide)]
    rfl
  · -- "<number>M"
    show parse_size (s ++ (⟨['M']⟩ : String)) = some (q * (1024 * 1024))
    unfold parse_size
    rw [if_pos ⟨append_char_ne_empty s 'M', append_char_ne_dash s 'M' (by decide)⟩,
      hdata 'M',
      if_pos (selfmem 'M'),
      key 'M' (by decide) (by decide)]
    rfl
  · -- "<number>G"
    show parse_size (s ++ (⟨['G']⟩ : String)) = some (q * (1024 * 1024 * 1024))
    unfold parse_size
    rw [if_pos ⟨append_char_ne_empty s 'G', append_char_ne_dash s 'G' (by decide)⟩,
      hdata 'G',
      if_neg (notmem 'M' 'G' (by decide) (by decide) (by decide)),
      if_neg (notmem 'K' 'G' (by decide) (by decide) (by decide)),
      if_pos (selfmem 'G'),
      key 'G' (by decide) (by decide)]
    rfl

end ScrapeFreedict
/-- C3: the metadata-only probe (`get_file_size` in `scrape-wiktionary.py`,
`test_url` in `quick-scrape.py`, two identical functions) returns the
integer byte count exactly when the response has status 200 and carries a
`content-length` header, and returns the `None` sentinel — never a zero —
on every failure: timeout or network error (`none` argument), non-200
status, or a 200 response missing the header. -/
theorem claim_C3 : ∀ r : Option ScrapeWiktionary.HResp,
    (∀ n : ℕ, ScrapeWiktionary.get_file_size r = some n ↔
      ∃ resp, r = some resp ∧ resp.status = 200 ∧ resp.contentLength = some n) ∧
    QuickScrape.test_url r = ScrapeWiktionary.get_file_size r ∧
    ((r = none ∨ ∃ resp, r = some resp ∧ (resp.status ≠ 200 ∨ resp.contentLength = none)) →
      ScrapeWiktionary.get_file_size r = none) := by
  intro r
  refine ⟨?_, ?_, ?_⟩
  · intro n
    cases r with
    | none => simp [ScrapeWiktionary.get_file_size]
    | some resp =>
      obtain ⟨st, cl⟩ := resp
      by_cases hst : st = 200
      · subst hst
        cases cl with
        | none => simp [ScrapeWiktionary.get_file_size]
        | some m => simp [ScrapeWiktionary.get_file_size]
      · simp [ScrapeWiktionary.get_file_size, hst]
  · cases r <;> rfl
  · intro hfail
    rcases hfail with rfl | ⟨resp, rfl, hf⟩
    · rfl
    · obtain ⟨st, cl⟩ := resp
      rcases hf with hst | hcl
      · simp only [ScrapeWiktionary.HResp.status] at hst
        simp [ScrapeWiktionary.get_file_size, hst]
      · simp only [ScrapeWiktionary.HResp.contentLength] at hcl
        subst hcl
        simp [ScrapeWiktionary.get_file_size]

/-- C3 witness: a 404 response yields the sentinel, a 200 response with a
header yields its byte count. -/
theorem claim_C3_witness :
    ScrapeWiktionary.get_file_size (some ⟨404, some 5⟩) = none ∧
    ScrapeWiktionary.get_file_size (some ⟨200, some 7⟩) = some 7 := by
  constructor
  · exact (claim_C3 (some ⟨404, some 5⟩)).2.2 (Or.inr ⟨⟨404, some 5⟩, rfl, Or.inl (by decide)⟩)
  · exact ((claim_C3 (some ⟨200, some 7⟩)).1 7).mpr ⟨⟨200, some 7⟩, rfl, rfl, rfl⟩

/-- C5: a pack id with zero hyphens, or with two or more, degrades to the
`"unknown"` target language and the `"<ID>-UNKNOWN Dictionary"` display
name (the generator never raises: the embedding is total). -/
theorem claim_C5 : ∀ id : String, id.data.count '-' ≠ 1 →
    GenerateRegistry.splitLangs id = (id, "unknown") ∧
    GenerateRegistry.deriveName id = pyUpper id ++ "-UNKNOWN Dictionary" := by
  intro id h
  have hs := GenerateRegistry.splitLangs_other id h
  refine ⟨hs, ?_⟩
  unfold GenerateRegistry.deriveName
  rw [hs]
  show pyUpper id ++ "-" ++ pyUpper "unknown" ++ " Dictionary" = _
  have h1 : pyUpper "unknown" = "UNKNOWN" := by decide
  rw [h1, str_append_assoc (pyUpper id) "-" "UNKNOWN",
    str_append_assoc (pyUpper id) ("-" ++ "UNKNOWN") " Dictionary",
    show ("-" ++ "UNKNOWN" : String) ++ " Dictionary" = "-UNKNOWN Dictionary" by decide]

/-- C5 witness: a hyphen-free id. -/
theorem claim_C5_witness :
    GenerateRegistry.splitLangs "abc" = ("abc", "unknown") ∧
    GenerateRegistry.deriveName "abc" = pyUpper "abc" ++ "-UNKNOWN Dictionary" :=
  claim_C5 "abc" (by decide)

/-- C4: a pack id with exactly one hyphen splits into its two halves as
source and target languages, with the display name upper-casing both; and
end-to-end, a directory holding `eng-spa.zip` of 1048576 bytes plus
`eng-spa.json` with `{"entries": 500, "version": "2.0"}` yields exactly one
record with id `eng-spa`, languages `eng`/`spa`, name
`ENG-SPA Dictionary`, `size_bytes` 1048576, `size_mb` 1.0, 500 entries,
version `2.0`. -/
theorem claim_C4 :
    (∀ a b : String, '-' ∉ a.data → '-' ∉ b.data →
      GenerateRegistry.splitLangs (a ++ "-" ++ b) = (a, b) ∧
      GenerateRegistry.deriveName (a ++ "-" ++ b) =
        pyUpper a ++ "-" ++ pyUpper b ++ " Dictionary") ∧
    (GenerateRegistry.generate_registry fsC4 t0).packs.map
        (fun p => (p.id, p.source_language, p.target_language, p.name,
          p.size_bytes, p.entries, p.version)) =
      [("eng-spa", "eng", "spa", "ENG-SPA Dictionary", 1048576, 500, "2.0")] ∧
    (GenerateRegistry.generate_registry fsC4 t0).packs.map GenerateRegistry.PackEntry.size_mb
      = [1] := by
  refine ⟨?_, ?_, ?_⟩
  · intro a b ha hb
    have hs := GenerateRegistry.splitLangs_two a b ha hb
    refine ⟨hs, ?_⟩
    unfold GenerateRegistry.deriveName
    rw [hs]
  · rfl
  · have h : (GenerateRegistry.generate_registry fsC4 t0).packs.map
        GenerateRegistry.PackEntry.size_mb =
        [pyRound1 ((1048576 : ℚ) / (1024 * 1024))] := rfl
    rw [h]
    norm_num [pyRound1]

/-- C4 witness: the one-hyphen rule at `eng-spa`. -/
theorem claim_C4_witness :
    GenerateRegistry.splitLangs ("eng" ++ "-" ++ "spa") = ("eng", "spa") ∧
    GenerateRegistry.deriveName ("eng" ++ "-" ++ "spa") =
      pyUpper "eng" ++ "-" ++ pyUpper "spa" ++ " Dictionary" :=
  claim_C4.1 "eng" "spa" (by decide) (by decide)

/-- C6: the FreeDict and full Wiktionary scanners retain an asset exactly
when at least one side of its language pair is in their fixed target sets,
while the top-10 Wiktionary scanner requires both sides; the two policies
differ (witnessed at an `english`/`klingon` pair). -/
theorem claim_C6 :
    (∀ (cands : List (String × String)) (p : String × String),
      p ∈ ScrapeFreedict.relevantPairs cands ↔
        p ∈ cands ∧ (p.1 ∈ ScrapeFreedict.TOP_LANGUAGES ∨
          p.2 ∈ ScrapeFreedict.TOP_LANGUAGES)) ∧
    (∀ (cands : List (String × String)) (p : String × String),
      p ∈ ScrapeWiktionary.keptDicts cands ↔
        p ∈ cands ∧ (p.1 ∈ ScrapeWiktionary.TOP_LANGUAGES ∨
          p.2 ∈ ScrapeWiktionary.TOP_LANGUAGES)) ∧
    (∀ (cands : List (String × String)) (p : String × String),
      p ∈ ScrapeWiktionaryTop10.keptDicts cands ↔
        p ∈ cands ∧ (p.1 ∈ ScrapeWiktionaryTop10.TOP_10_LANGUAGES ∧
          p.2 ∈ ScrapeWiktionaryTop10.TOP_10_LANGUAGES)) ∧
    (ScrapeWiktionary.keepDict "english" "klingon" = true ∧
      ScrapeWiktionaryTop10.keepDict "english" "klingon" = false) := by
  refine ⟨?_, ?_, ?_, by decide, by decide⟩
  · intro cands p
    simp [ScrapeFreedict.relevantPairs, ScrapeFreedict.keepPair, List.mem_filter]
  · intro cands p
    simp [ScrapeWiktionary.keptDicts, ScrapeWiktionary.keepDict, List.mem_filter]
  · intro cands p
    simp [ScrapeWiktionaryTop10.keptDicts, ScrapeWiktionaryTop10.keepDict, List.mem_filter]

/-- C6 witness: an `english`/`klingon` pair is kept by the either-side
filter and dropped by the both-sides filter. -/
theorem claim_C6_witness :
    ("english", "klingon") ∈ ScrapeWiktionary.keptDicts [("english", "klingon")] ∧
    ("english", "klingon") ∉ ScrapeWiktionaryTop10.keptDicts [("english", "klingon")] := by
  constructor
  · exact (claim_C6.2.1 [("english", "klingon")] ("english", "klingon")).mpr
      ⟨List.mem_singleton_self _, Or.inl (by decide)⟩
  · intro hmem
    have h := (claim_C6.2.2.1 [("english", "klingon")] ("english", "klingon")).mp hmem
    exact absurd h.2.2 (by decide)

/-- C1: the human-readable size parser, applied to the size column of the
first table row whose (stripped) filename cell ends in
`.stardict.tar.xz`, returns number × 1024 bytes for `<number>K`,
number × 1024² for `<number>M`, number × 1024³ for `<number>G`, and the
`None` sentinel for `-` and the empty string. -/
theorem claim_C1 :
    (∀ (pre : List (List String)) (row : List String) (post : List (List String)),
      (∀ r ∈ pre, ScrapeFreedict.rowMatches r = false) →
      ScrapeFreedict.rowMatches row = true →
      ScrapeFreedict.scanStardict (pre ++ row :: post) =
        some (pyStrip (row.getD 1 ""), ScrapeFreedict.parse_size (pyStrip (row.getD 3 "")))) ∧
    (∀ (s : String) (q : ℚ), ScrapeFreedict.pyFloat? s = some q →
      ScrapeFreedict.parse_size (s ++ "K") = some (q * 1024) ∧
      ScrapeFreedict.parse_size (s ++ "M") = some (q * (1024 * 1024)) ∧
      ScrapeFreedict.parse_size (s ++ "G") = some (q * (1024 * 1024 * 1024))) ∧
    ScrapeFreedict.parse_size "-" = none ∧
    ScrapeFreedict.parse_size "" = none := by
  refine ⟨ScrapeFreedict.scanStardict_first, ?_, by decide, by decide⟩
  intro s q h
  exact ScrapeFreedict.parse_size_eq s h

/-- C1 witness: the first matching row of a two-row table is selected and
`2K` parses to 2048 bytes. -/
theorem claim_C1_witness :
    ScrapeFreedict.scanStardict
        ([["", "x.txt", "", "5"]] ++ ["", "f.stardict.tar.xz", "", "2K"] :: []) =
      some (pyStrip "f.stardict.tar.xz", ScrapeFreedict.parse_size (pyStrip "2K")) ∧
    ScrapeFreedict.parse_size ("2" ++ "K") = some 2048 := by
  constructor
  · exact claim_C1.1 [["", "x.txt", "", "5"]] ["", "f.stardict.tar.xz", "", "2K"] []
      (by decide) (by decide)
  · have h2 := (claim_C1.2.1 "2" 2 rfl).1
    rw [h2]
    norm_num

/-- C2 as stated is false: two assets with equal sizes cannot be listed in
strictly descending order — here both records carry size 1 MiB and the
resulting registry is not strictly descending. -/
theorem claim_C2_counterexample :
    ¬ (List.Chain' (fun a b => ScrapeWiktionary.sizeKey b < ScrapeWiktionary.sizeKey a)
        (ScrapeWiktionary.registryOf [("a-b", some 1), ("c-d", some 1)]) ∧
      ((ScrapeWiktionary.registryOf [("a-b", some 1), ("c-d", some 1)]).map Prod.fst).Nodup) := by
  have h1 : ScrapeWiktionary.registryOf [("a-b", some 1), ("c-d", some 1)] =
      pyInsert ScrapeWiktionary.descLE ("a-b", some 1) [("c-d", some 1)] := rfl
  have hle : ScrapeWiktionary.descLE ("a-b", some 1) ("c-d", some 1) = true :=
    decide_eq_true (le_refl (1 : ℚ))
  have h2 : ScrapeWiktionary.registryOf [("a-b", some 1), ("c-d", some 1)] =
      [("a-b", some 1), ("c-d", some 1)] := by
    rw [h1, pyInsert, if_pos hle]
  rw [h2]
  rintro ⟨hchain, -⟩
  rcases List.chain'_cons.mp hchain with ⟨hr, -⟩
  exact lt_irrefl (1 : ℚ) hr

/-- C2 amended: the final registry lists records in weakly descending (not
strictly descending) order of MiB size, with absent sizes ordered as 0,
and every pair identifier occurs at most once. -/
theorem claim_C2_amended : ∀ items : List (String × Option ℚ),
    List.Pairwise (fun a b => ScrapeWiktionary.sizeKey b ≤ ScrapeWiktionary.sizeKey a)
      (ScrapeWiktionary.registryOf items) ∧
    ((ScrapeWiktionary.registryOf items).map Prod.fst).Nodup := by
  intro items
  constructor
  · have hp := pySorted_pairwise ScrapeWiktionary.descLE ScrapeWiktionary.descLE_total
      ScrapeWiktionary.descLE_trans (ScrapeWiktionary.buildResults items)
    exact hp.imp (fun h => of_decide_eq_true h)
  · have hperm := (pySorted_perm ScrapeWiktionary.descLE
      (ScrapeWiktionary.buildResults items)).map Prod.fst
    exact hperm.nodup_iff.mpr (ScrapeWiktionary.buildResults_keys_nodup items)

/-- C7: the version comparison under the numeric-aware key is well-defined
(never raises a `TypeError`) for every pair of strings, and the
directory-listing scanner selects from a nonempty version list a maximal
element under that key. -/
theorem claim_C7 :
    (∀ x y : String, (ScrapeFreedict.keyCmp x y).isSome = true) ∧
    (∀ (versions : List String) (latest : String),
      ScrapeFreedict.latestVersion versions = some latest →
      ∀ v ∈ versions, ScrapeFreedict.keyLEb v latest = true) ∧
    (∀ versions : List String, versions ≠ [] →
      (ScrapeFreedict.latestVersion versions).isSome = true) := by
  refine ⟨?_, ?_, ?_⟩
  · intro x y
    obtain ⟨o, ho⟩ := ScrapeFreedict.keyCmp_some x y
    rw [ho]
    rfl
  · intro versions latest hl v hv
    unfold ScrapeFreedict.latestVersion at hl
    by_cases hne : versions.isEmpty
    · rw [if_pos hne] at hl; cases hl
    · rw [if_neg hne] at hl
      have hpair := pySorted_pairwise ScrapeFreedict.keyLEb
        (fun a b => ScrapeFreedict.keyLEb_total a b)
        (fun a b c h1 h2 => ScrapeFreedict.keyLEb_trans h1 h2)
        versions
      have hrefl : ∀ x, ScrapeFreedict.keyLEb x x = true := fun x =>
        (ScrapeFreedict.keyLEb_total x x).elim id id
      have hmem : v ∈ pySorted ScrapeFreedict.keyLEb versions :=
        (pySorted_perm ScrapeFreedict.keyLEb versions).mem_iff.mpr hv
      exact pairwise_getLast_le ScrapeFreedict.keyLEb hrefl _ latest hpair hl v hmem
  · intro versions hne
    unfold ScrapeFreedict.latestVersion
    rw [if_neg (by simpa using hne)]
    apply getLast?_isSome_of_ne_nil
    intro h0
    have hp := pySorted_perm ScrapeFreedict.keyLEb versions
    rw [h0] at hp
    exact hne (List.eq_nil_of_length_eq_zero hp.length_eq.symm)

/-- C7 witness: `1.10` beats `1.9-fd1` because digit runs compare as
integers. -/
theorem claim_C7_witness :
    ScrapeFreedict.latestVersion ["1.10", "1.9-fd1"] = some "1.10" ∧
    ScrapeFreedict.keyLEb "1.9-fd1" "1.10" = true := by
  refine ⟨by decide, ?_⟩
  exact claim_C7.2.1 ["1.10", "1.9-fd1"] "1.10" (by decide) "1.9-fd1" (by decide)

/-- C8 as stated is false: the Local Registry Generator iterates
`sorted(zip_files)`, so for a directory scanned as `b.zip`, `a.zip` the
emitted `packs` order is not the filesystem-scan order. -/
theorem claim_C8_counterexample :
    ¬ ((GenerateRegistry.generate_registry fsC8 t0).packs.map GenerateRegistry.PackEntry.file =
      fsC8.zipFiles) := by
  decide

/-- C8 amended: the output has version `"1.0"`, an `isoformat` timestamp
with a trailing `Z`, and `packs` holds one record per archive file listed
in ascending (sorted) filename order — the filesystem scan order sorted,
not the raw scan order. -/
theorem claim_C8_amended : ∀ (fs : GenerateRegistry.FS) (now : GenerateRegistry.DT),
    (GenerateRegistry.generate_registry fs now).version = "1.0" ∧
    (GenerateRegistry.generate_registry fs now).timestamp =
      GenerateRegistry.pyIsoformat now ++ "Z" ∧
    ((GenerateRegistry.generate_registry fs now).timestamp).data.getLast? = some 'Z' ∧
    (GenerateRegistry.generate_registry fs now).packs.map GenerateRegistry.PackEntry.file =
      pySorted strLEb fs.zipFiles ∧
    List.Perm ((GenerateRegistry.generate_registry fs now).packs.map
      GenerateRegistry.PackEntry.file) fs.zipFiles := by
  intro fs now
  refine ⟨rfl, rfl, ?_, GenerateRegistry.packs_map_file fs now, ?_⟩
  · show (GenerateRegistry.pyIsoformat now ++ "Z").data.getLast? = some 'Z'
    rw [str_data_append, show ("Z" : String).data = ['Z'] from rfl, List.getLast?_concat]
  · rw [GenerateRegistry.packs_map_file]
    exact pySorted_perm strLEb fs.zipFiles

/-- C9: the Local Registry Generator is a deterministic function of the
directory contents: over unchanged contents (even rescanned in another
order) only the timestamp may differ between two runs — the `packs`
arrays are identical. -/
theorem claim_C9 : ∀ (fs fs' : GenerateRegistry.FS) (t t' : GenerateRegistry.DT),
    List.Perm fs.zipFiles fs'.zipFiles → fs.sizeOf = fs'.sizeOf →
    fs.metaFile = fs'.metaFile →
    (GenerateRegistry.generate_registry fs t).packs =
      (GenerateRegistry.generate_registry fs' t').packs ∧
    (GenerateRegistry.generate_registry fs t).version =
      (GenerateRegistry.generate_registry fs' t').version := by
  intro fs fs' t t' hperm hs hm
  refine ⟨?_, rfl⟩
  show (pySorted strLEb fs.zipFiles).map (GenerateRegistry.packEntry fs) =
    (pySorted strLEb fs'.zipFiles).map (GenerateRegistry.packEntry fs')
  rw [pySorted_eq_of_perm strLEb strLEb_total (fun a b c h1 h2 => strLEb_trans h1 h2)
    (fun a b h1 h2 => strLEb_antisymm h1 h2) hperm]
  rw [funext (GenerateRegistry.packEntry_congr hs hm)]

/-- C9 witness: the same directory contents scanned in two different orders
at two different times yield identical `packs`. -/
theorem claim_C9_witness :
    (GenerateRegistry.generate_registry fsC8 t0).packs =
      (GenerateRegistry.generate_registry fsC8' t1).packs :=
  (claim_C9 fsC8 fsC8' t0 t1 (by decide) rfl rfl).1

/-- C10: when an archive's size cannot be read, the local size query
returns 0 (not an absence sentinel), so the emitted record carries
`size_bytes` 0 and `size_mb` 0.0 — unlike the remote probes, an unknown
local size is indistinguishable from a zero-byte file. -/
theorem claim_C10 : ∀ (fs : GenerateRegistry.FS) (now : GenerateRegistry.DT) (z : String),
    z ∈ fs.zipFiles → fs.sizeOf z = none →
    GenerateRegistry.get_file_size fs z = 0 ∧
    GenerateRegistry.packEntry fs z ∈ (GenerateRegistry.generate_registry fs now).packs ∧
    (GenerateRegistry.packEntry fs z).size_bytes = 0 ∧
    (GenerateRegistry.packEntry fs z).size_mb = 0 := by
  intro fs now z hz hnone
  have hg : GenerateRegistry.get_file_size fs z = 0 := by
    unfold GenerateRegistry.get_file_size
    rw [hnone]
    rfl
  refine ⟨hg, ?_, ?_, ?_⟩
  · show GenerateRegistry.packEntry fs z ∈
      (pySorted strLEb fs.zipFiles).map (GenerateRegistry.packEntry fs)
    exact List.mem_map_of_mem _ ((pySorted_perm strLEb fs.zipFiles).mem_iff.mpr hz)
  · show GenerateRegistry.get_file_size fs z = 0
    exact hg
  · show pyRound1 ((GenerateRegistry.get_file_size fs z : ℚ) / (1024 * 1024)) = 0
    rw [hg]
    norm_num [pyRound1]

/-- C10 witness: an unreadable `x.zip` produces a record with zero sizes. -/
theorem claim_C10_witness :
    GenerateRegistry.get_file_size fsC10 "x.zip" = 0 ∧
    (GenerateRegistry.packEntry fsC10 "x.zip").size_mb = 0 := by
  have h := claim_C10 fsC10 t0 "x.zip" (List.mem_singleton_self _) rfl
  exact ⟨h.1, h.2.2.2⟩
